import Mathlib

/-!
Shallow embedding of the costlibrary-to-sql ingestion core:
text normalisation (`clean_text`), row classification
(`is_valid_category_name`, `is_valid_item_name`, `process_row`),
price resolution (`get_max_price`), header discovery
(`find_column_indices`) and the sheet-walking state machine
(`sheetStep`, `sheetLoop`, `process_sheet`, `process_data`),
translated from src/excel_processor.py, src/text_validator.py and
src/main.py.  Strings are modelled as `List Char`; floating point
prices are modelled as exact rationals (every price literal in the
properties below is exactly representable).
-/

/-- The whitespace characters recognised by Python str.strip / str.split
and by the regex class backslash-s for ASCII input. -/
def isSp (c : Char) : Bool :=
  c = ' ' || c = '\t' || c = '\n' || c = '\r' || c = '\x0b' || c = '\x0c'

/-- The punctuation set stripped from both ends by clean_text
(Python text.strip of the four characters star, colon, dash, dot). -/
def inP (c : Char) : Bool :=
  c = '*' || c = ':' || c = '-' || c = '.'

/-- Remove the longest prefix whose characters satisfy p. -/
def lstripBy (p : Char → Bool) (l : List Char) : List Char :=
  l.dropWhile p

/-- Remove the longest suffix whose characters satisfy p. -/
def rstripBy (p : Char → Bool) (l : List Char) : List Char :=
  (l.reverse.dropWhile p).reverse

/-- Python str.strip-style two-sided strip by a character predicate. -/
def stripBy (p : Char → Bool) (l : List Char) : List Char :=
  rstripBy p (lstripBy p l)

/-- Python text.split(): the maximal whitespace-free words, in order
(structural recursion with one character of lookahead). -/
def words : List Char → List (List Char)
  | [] => []
  | [c] => if isSp c then [] else [[c]]
  | c :: d :: cs =>
    let r := words (d :: cs)
    if isSp c then r
    else if isSp d then [c] :: r
    else
      match r with
      | w :: ws => (c :: w) :: ws
      | [] => [[c]]

/-- Python " ".join: interleave a single space between words. -/
def joinW : List (List Char) → List Char
  | [] => []
  | [w] => w
  | w :: x :: rest => w ++ ' ' :: joinW (x :: rest)

/-- ExcelProcessor.clean_text / TextValidator.clean_text
(src/excel_processor.py lines 203-228): strip whitespace, collapse
internal whitespace runs to single spaces, strip the edge punctuation
set, strip whitespace again; empty results become None. -/
def clean_text (t : List Char) : Option (List Char) :=
  if t.isEmpty then none
  else
    let t1 := stripBy isSp t
    let t2 := joinW (words t1)
    let t3 := stripBy inP t2
    let t4 := stripBy isSp t3
    if t4.isEmpty then none else some t4

/-- Case-insensitive literal match: the pattern (given in lowercase)
must be a prefix of the input up to lowercasing; returns the rest. -/
def lowMatch : List Char → List Char → Option (List Char)
  | [], l => some l
  | _ :: _, [] => none
  | p :: ps, c :: cs => if c.toLower = p then lowMatch ps cs else none

/-- Consume the leading whitespace (regex backslash-s star). -/
def wsStar (l : List Char) : List Char := l.dropWhile isSp

/-- Does the input start with a whitespace character (backslash-s plus)? -/
def hasWsHead : List Char → Bool
  | c :: _ => isSp c
  | [] => false

/-- Optionally consume one occurrence of the given (lowercase) character. -/
def optTok (c : Char) : List Char → List Char
  | x :: xs => if x.toLower = c then xs else x :: xs
  | [] => []

/-- Does the input start with a colon? -/
def hasColonHead : List Char → Bool
  | ':' :: _ => true
  | _ => false

/-- Pattern 1: rows starting with one or more asterisks. -/
def patAsterisk (l : List Char) : Bool :=
  match wsStar l with
  | '*' :: _ => true
  | _ => false

/-- Pattern 2: NOTE or NOTES followed by optional whitespace and a colon. -/
def patNote (l : List Char) : Bool :=
  match lowMatch "note".toList (wsStar l) with
  | some r => hasColonHead (wsStar (optTok 's' r))
  | none => false

/-- Pattern 3: TO BE followed by whitespace. -/
def patToBe (l : List Char) : Bool :=
  match lowMatch "to be".toList (wsStar l) with
  | some r => hasWsHead r
  | none => false

/-- Pattern 4: GUIDE with an optional colon (the trailing regex parts
are optional, so the literal alone suffices). -/
def patGuide (l : List Char) : Bool :=
  (lowMatch "guide".toList (wsStar l)).isSome

/-- Patterns 5-7: a fixed word, optional whitespace, then a colon. -/
def patWordColon (w : List Char) (l : List Char) : Bool :=
  match lowMatch w (wsStar l) with
  | some r => hasColonHead (wsStar r)
  | none => false

/-- Pattern 8: N.B. or NB (periods optional), optional whitespace, colon. -/
def patNB (l : List Char) : Bool :=
  match wsStar l with
  | n :: r =>
    if n.toLower = 'n' then
      match optTok '.' r with
      | b :: r2 =>
        if b.toLower = 'b' then hasColonHead (wsStar (optTok '.' r2))
        else false
      | [] => false
    else false
  | [] => false

/-- Pattern 9: an optional opening parenthesis, "see", then whitespace. -/
def patSee (l : List Char) : Bool :=
  match lowMatch "see".toList (optTok '(' (wsStar l)) with
  | some r => hasWsHead r
  | none => false

/-- ExcelProcessor.INVALID_PATTERNS / TextValidator.INVALID_PATTERNS
(src/excel_processor.py lines 12-25): the nine case-insensitive noise
patterns, each anchored at the start with optional leading whitespace.
A regex search of an anchored pattern succeeds exactly on a match at
position zero. -/
def anyPattern (l : List Char) : Bool :=
  patAsterisk l || patNote l || patToBe l || patGuide l ||
  patWordColon "important".toList l || patWordColon "warning".toList l ||
  patWordColon "caution".toList l || patNB l || patSee l

/-- Python str.isdigit for ASCII: nonempty and all characters digits. -/
def pyIsDigitStr (l : List Char) : Bool :=
  !l.isEmpty && l.all Char.isDigit

/-- ExcelProcessor.is_valid_category_name (src/excel_processor.py lines
155-181): nonempty, at least two characters after stripping, no noise
pattern, alphanumeric first character, and not all digits once the
dots are removed. -/
def is_valid_category_name : List Char → Bool
  | [] => false
  | c :: cs =>
    if (stripBy isSp (c :: cs)).length < 2 then false
    else if anyPattern (c :: cs) then false
    else if !c.isAlphanum then false
    else if pyIsDigitStr ((c :: cs).filter (fun x => x ≠ '.')) then false
    else true

/-- ExcelProcessor.is_valid_item_name (src/excel_processor.py lines
183-201): nonempty, at least two characters after stripping, and no
noise pattern. -/
def is_valid_item_name : List Char → Bool
  | [] => false
  | c :: cs =>
    if (stripBy isSp (c :: cs)).length < 2 then false
    else if anyPattern (c :: cs) then false
    else true

example : clean_text "* *a".toList = some "*a".toList := by decide
example : clean_text "*a".toList = some "a".toList := by decide
example : clean_text "  hello   world ".toList = some "hello world".toList := by decide
example : clean_text "NOTE:".toList = some "NOTE".toList := by decide
example : clean_text "** * **".toList = some "*".toList := by decide
example : clean_text "*".toList = none := by decide

example : is_valid_category_name "Earthworks".toList = true := by decide
example : is_valid_category_name "Excavation".toList = true := by decide
example : is_valid_category_name "NOTE".toList = true := by decide
example : is_valid_category_name "NOTE: see below".toList = false := by decide
example : is_valid_item_name "NOTE: see below".toList = false := by decide
example : is_valid_category_name "3.5".toList = false := by decide
example : anyPattern "NOTE:".toList = true := by decide
example : anyPattern "** Important".toList = true := by decide
example : anyPattern "Guidelines for x".toList = true := by decide
example : anyPattern "(see over".toList = true := by decide
example : anyPattern "n.b: x".toList = true := by decide
example : anyPattern "Earthworks".toList = false := by decide

/-- A raw spreadsheet cell: missing (pandas NaN), text, or numeric.
Numeric cells are modelled as exact rationals; every numeric literal
in the claims is exactly representable in binary floating point, so
comparisons and maxima agree with the Python floats. -/
inductive Cell
  | blank
  | str (s : List Char)
  | num (q : ℚ)
deriving DecidableEq

/-- Decimal digits of a natural number (fuel-based so it reduces). -/
def natDigitsAux : Nat → Nat → List Char
  | 0, _ => []
  | fuel + 1, n =>
    if n < 10 then [Char.ofNat (48 + n)]
    else natDigitsAux fuel (n / 10) ++ [Char.ofNat (48 + n % 10)]

/-- Decimal digits of a natural number. -/
def natDigits (n : Nat) : List Char := natDigitsAux (n + 1) n

/-- Python format n:03d — decimal, zero-padded on the left to width 3. -/
def pad3 (n : Nat) : List Char :=
  let d := natDigits n
  List.replicate (3 - d.length) '0' ++ d

example : pad3 1 = "001".toList := by decide
example : pad3 12 = "012".toList := by decide
example : pad3 1234 = "1234".toList := by decide

/-- Python str() of a cell as the source applies it: str of a missing
value (a float NaN) is "nan"; str of text is the text itself.  For
numeric cells only the integral float rendering (e.g. str(100.0) =
"100.0") arises in any property below; non-integral rationals keep
their integer part, which no claim exercises. -/
def pyStr : Cell → List Char
  | Cell.blank => "nan".toList
  | Cell.str s => s
  | Cell.num q =>
    (if q < 0 then ['-'] else []) ++ natDigits q.num.natAbs ++
      (if q.den = 1 then ['.', '0'] else [])

/-- The dictionary returned by ExcelProcessor.process_row: a category
payload or an item payload with unit text and the two raw price cells. -/
inductive ProcessedRow
  | category (name : List Char)
  | item (name unit : List Char) (national_price sa_price : Cell)
deriving DecidableEq

/-- The tuple (item, unit, national, sa) of column indices returned by
ExcelProcessor.find_column_indices. -/
abbrev ColIdx := Option Nat × Option Nat × Option Nat × Option Nat

/-- ExcelProcessor.process_row (src/excel_processor.py lines 111-153):
take the row's first cell, drop the row unless it is nonempty and
starts with a letter, clean it, then classify: category if the cleaned
text is a valid category name, otherwise item if it is a valid item
name (reading the unit and the two raw price cells), otherwise skip.
Out-of-range cell access is modelled as a missing cell. -/
def process_row (row : List Cell) (ci : ColIdx) : Option ProcessedRow :=
  let first_cell := stripBy isSp (pyStr (row.headD Cell.blank))
  match first_cell with
  | [] => none
  | c :: _ =>
    if !c.isAlpha then none
    else
      match clean_text first_cell with
      | none => none
      | some cleaned =>
        if is_valid_category_name cleaned then some (ProcessedRow.category cleaned)
        else if is_valid_item_name cleaned then
          some (ProcessedRow.item cleaned
            (match ci.2.1 with
             | some i => stripBy isSp (pyStr (row.getD i Cell.blank))
             | none => [])
            (match ci.2.2.1 with
             | some i => row.getD i Cell.blank
             | none => Cell.num 0)
            (match ci.2.2.2 with
             | some i => row.getD i Cell.blank
             | none => Cell.num 0))
        else none

example :
    process_row [Cell.str "Earthworks".toList, Cell.str [], Cell.str [], Cell.str []]
      (some 0, some 1, some 2, some 3)
      = some (ProcessedRow.category "Earthworks".toList) := by decide
example :
    process_row [Cell.str "Excavation".toList, Cell.str "m3".toList,
        Cell.str "100".toList, Cell.str "120".toList]
      (some 0, some 1, some 2, some 3)
      = some (ProcessedRow.category "Excavation".toList) := by decide
example :
    process_row [Cell.str "3".toList, Cell.str "m3".toList,
        Cell.str "100".toList, Cell.str "120".toList]
      (some 0, some 1, some 2, some 3) = none := by decide
example :
    process_row [Cell.str "NOTE:".toList] (none, none, none, none)
      = some (ProcessedRow.category "NOTE".toList) := by decide

/-- Numeric value of a list of decimal digit characters. -/
def digitsVal (l : List Char) : Nat :=
  l.foldl (fun a c => 10 * a + (c.toNat - 48)) 0

/-- The syntactic parse of a Python float string: negative sign flag,
integer-part digits, fractional-part digits, and the signed exponent. -/
structure FloatParts where
  neg : Bool
  intDigits : List Char
  fracDigits : List Char
  exp10 : Int
deriving DecidableEq

/-- The syntactic part of Python float() applied to a string: optional
surrounding whitespace, optional sign, a decimal mantissa with an
optional fractional part, and an optional exponent.  (The inf/nan
words and digit-group underscores Python also accepts are omitted; no
claim exercises them.)  Returns none where Python raises ValueError. -/
def pyFloatParse (s : List Char) : Option FloatParts :=
  let t := stripBy isSp s
  let sgnRest : Bool × List Char :=
    match t with
    | '+' :: r => (false, r)
    | '-' :: r => (true, r)
    | _ => (false, t)
  let t1 := sgnRest.2
  let ip := t1.takeWhile Char.isDigit
  let r1 := t1.dropWhile Char.isDigit
  let fpRest : List Char × List Char :=
    match r1 with
    | '.' :: r => (r.takeWhile Char.isDigit, r.dropWhile Char.isDigit)
    | _ => ([], r1)
  let fp := fpRest.1
  let r2 := fpRest.2
  if ip.isEmpty && fp.isEmpty then none
  else
    match r2 with
    | [] => some ⟨sgnRest.1, ip, fp, 0⟩
    | e :: r3 =>
      if e = 'e' || e = 'E' then
        let esgnRest : Bool × List Char :=
          match r3 with
          | '+' :: r => (false, r)
          | '-' :: r => (true, r)
          | _ => (false, r3)
        let ed := esgnRest.2.takeWhile Char.isDigit
        let r5 := esgnRest.2.dropWhile Char.isDigit
        if ed.isEmpty || !r5.isEmpty then none
        else
          some ⟨sgnRest.1, ip, fp,
            (if esgnRest.1 then -(digitsVal ed : Int) else (digitsVal ed : Int))⟩
      else none

/-- The exact rational value of a parsed float. -/
def ratOfParts (p : FloatParts) : ℚ :=
  (if p.neg then -1 else 1) *
    ((digitsVal p.intDigits : ℚ) +
      (digitsVal p.fracDigits : ℚ) / ((10 : ℚ) ^ p.fracDigits.length)) *
    (10 : ℚ) ^ p.exp10

/-- Python float() on a string, as an exact rational. -/
def pyFloat (s : List Char) : Option ℚ :=
  (pyFloatParse s).map ratOfParts

example : pyFloatParse "12.5".toList = some ⟨false, "12".toList, "5".toList, 0⟩ := by
  decide
example : pyFloatParse "abc".toList = none := by decide
example : pyFloatParse "".toList = none := by decide
example : pyFloatParse "-5".toList = some ⟨true, "5".toList, [], 0⟩ := by decide
example : pyFloatParse " 120 ".toList = some ⟨false, "120".toList, [], 0⟩ := by decide
example : pyFloat "12.5".toList = some (25 / 2 : ℚ) := by
  have h : pyFloatParse "12.5".toList = some ⟨false, "12".toList, "5".toList, 0⟩ := by
    decide
  have hv : ratOfParts ⟨false, "12".toList, "5".toList, 0⟩ = 25 / 2 := by
    have h1 : digitsVal "12".toList = 12 := by decide
    have h2 : digitsVal "5".toList = 5 := by decide
    have h3 : ("5".toList).length = 1 := by decide
    rw [ratOfParts]
    simp only [h1, h2, h3]
    norm_num
  rw [pyFloat, h, Option.map_some', hv]

/-- The inner parse_price of ExcelProcessor.get_max_price
(src/excel_processor.py lines 70-75): missing values (pd.notna false)
give 0; numeric cells give their value; text is parsed with float(),
and a ValueError gives 0. -/
def parse_price : Cell → ℚ
  | Cell.blank => 0
  | Cell.num q => q
  | Cell.str s => (pyFloat s).getD 0

/-- ExcelProcessor.get_max_price (src/excel_processor.py lines 58-77):
parse the two raw price values independently and return the larger. -/
def get_max_price (national_price sa_price : Cell) : ℚ :=
  max (parse_price national_price) (parse_price sa_price)

example : get_max_price Cell.blank Cell.blank = 0 := by
  simp [get_max_price, parse_price]

/-- Is the needle a contiguous substring of the haystack (Python in)? -/
def substr (needle hay : List Char) : Bool :=
  hay.tails.any (fun t => needle.isPrefixOf t)

/-- Header normalisation in ExcelProcessor.find_column_indices
(src/excel_processor.py line 49): str(h).strip().lower() for a present
header, the empty string for a missing one (pd.notna false). -/
def hdrNorm : Cell → List Char
  | Cell.blank => []
  | h => (stripBy isSp (pyStr h)).map Char.toLower

/-- ExcelProcessor.find_column_indices (src/excel_processor.py lines
39-56): lowercase and strip each header (missing headers become the
empty string), then return the first index whose header contains
"item", "unit", "national", "sa" respectively, as a 4-tuple of
optional indices. -/
def find_column_indices (headers : List Cell) : ColIdx :=
  let hs := headers.map hdrNorm
  (hs.findIdx? (fun h => substr "item".toList h),
   hs.findIdx? (fun h => substr "unit".toList h),
   hs.findIdx? (fun h => substr "national".toList h),
   hs.findIdx? (fun h => substr "sa".toList h))

example :
    find_column_indices [Cell.str "Item".toList, Cell.str "Unit".toList,
        Cell.str "National Price".toList, Cell.str "SA Price".toList]
      = (some 0, some 1, some 2, some 3) := by decide
example :
    find_column_indices [Cell.str "foo".toList, Cell.str "bar".toList]
      = (none, none, none, none) := by decide

/-- A record handed to the database layer: an inserted category
(insert_category) or an inserted cost element (insert_cost_element). -/
inductive Record
  | cat (id name disc : List Char)
  | elem (name unit : List Char) (price : ℚ) (catId : List Char)
deriving DecidableEq

/-- One iteration of the row loop of DataIngestionApp._process_sheet
(src/main.py lines 213-249), acting on the state
(category_counter, current_category_id): a category row increments the
counter, formats the new id with 03d and emits a category record; an
item row emits a cost element with the resolved maximum price only
when the current category id is set and nonempty (Python truthiness);
otherwise nothing is emitted and the state is unchanged. -/
def sheetStep (disc : List Char) (st : Nat × Option (List Char))
    (pr : Option ProcessedRow) : (Nat × Option (List Char)) × List Record :=
  match pr with
  | none => (st, [])
  | some (ProcessedRow.category name) =>
    let k := st.1 + 1
    let id := pad3 k
    ((k, some id), [Record.cat id name disc])
  | some (ProcessedRow.item name unit np sa) =>
    match st.2 with
    | some id =>
      if id.isEmpty then (st, [])
      else (st, [Record.elem name unit (get_max_price np sa) id])
    | none => (st, [])

/-- The whole row loop of DataIngestionApp._process_sheet over the
stream of processed rows, threading the state and collecting the
emitted records in order. -/
def sheetLoop (disc : List Char) :
    List (Option ProcessedRow) → Nat × Option (List Char) →
    (Nat × Option (List Char)) × List Record
  | [], st => (st, [])
  | pr :: rest, st =>
    let out1 := sheetStep disc st pr
    let out2 := sheetLoop disc rest out1.1
    (out2.1, out1.2 ++ out2.2)

/-- A worksheet: the designated header row and the data rows below it. -/
structure Sheet where
  headers : List Cell
  rows : List (List Cell)
deriving DecidableEq

/-- DataIngestionApp._process_sheet (src/main.py lines 167-254): find
the column indices; if the item or the unit column is missing, report
an error and skip the whole sheet, returning the counter unchanged;
otherwise run the row loop with current_category_id initialised to
None (main.py line 209) and return the updated counter, the emitted
records, and whether a missing-column error was reported. -/
def process_sheet (disc : List Char) (sheet : Sheet)
    (category_counter : Nat) : Nat × List Record × Bool :=
  let ci := find_column_indices sheet.headers
  if ci.1 = none ∨ ci.2.1 = none then
    (category_counter, [], true)
  else
    let out := sheetLoop disc (sheet.rows.map (fun r => process_row r ci))
      (category_counter, none)
    (out.1.1, out.2, false)

/-- DataIngestionApp.process_data (src/main.py lines 111-147):
category_counter is initialised to 0 once (line 128) and every sheet
is processed with that same variable; the updated counter returned by
_process_sheet is never assigned back (lines 132-140), so each call
receives 0.  The run's output is the concatenation of the records of
all sheets in order. -/
def process_data (disc : List Char) (sheets : List Sheet) : List Record :=
  (sheets.map (fun s => (process_sheet disc s 0).2.1)).flatten

/-! ### Character-class facts -/

theorem alpha_not_digit {c : Char} (h : c.isAlpha = true) : c.isDigit = false := by
  have e48 : (UInt32.toBitVec 48).toNat = 48 := rfl
  have e57 : (UInt32.toBitVec 57).toNat = 57 := rfl
  have e65 : (UInt32.toBitVec 65).toNat = 65 := rfl
  have e90 : (UInt32.toBitVec 90).toNat = 90 := rfl
  have e97 : (UInt32.toBitVec 97).toNat = 97 := rfl
  have e122 : (UInt32.toBitVec 122).toNat = 122 := rfl
  simp only [Char.isAlpha, Char.isUpper, Char.isLower, Char.isDigit,
    Bool.or_eq_true, Bool.and_eq_true, decide_eq_true_eq,
    UInt32.le_def, BitVec.le_def, e48, e57, e65, e90, e97, e122] at *
  rcases h with ⟨h1, h2⟩ | ⟨h1, h2⟩ <;>
  · simp only [Bool.and_eq_false_iff, decide_eq_false_iff_not]
    omega

theorem alpha_alphanum {c : Char} (h : c.isAlpha = true) : c.isAlphanum = true := by
  simp [Char.isAlphanum, h]

theorem alpha_not_sp {c : Char} (h : c.isAlpha = true) : isSp c = false := by
  cases hs : isSp c
  · rfl
  · simp only [isSp, Bool.or_eq_true, decide_eq_true_eq] at hs
    rcases hs with ((((h1 | h1) | h1) | h1) | h1) | h1 <;> subst h1 <;> simp_all

theorem alpha_not_inP {c : Char} (h : c.isAlpha = true) : inP c = false := by
  cases hs : inP c
  · rfl
  · simp only [inP, Bool.or_eq_true, decide_eq_true_eq] at hs
    rcases hs with ((h1 | h1) | h1) | h1 <;> subst h1 <;> simp_all

theorem alpha_ne_dot {c : Char} (h : c.isAlpha = true) : c ≠ '.' := by
  intro he
  subst he
  simp_all

/-! ### dropWhile, rstripBy and stripBy -/

theorem dw_head {p : Char → Bool} :
    ∀ {l : List Char} {c : Char}, (l.dropWhile p).head? = some c → p c = false := by
  intro l
  induction l with
  | nil => intro c h; simp [List.dropWhile] at h
  | cons a t ih =>
    intro c h
    rw [List.dropWhile_cons] at h
    by_cases hp : p a = true
    · rw [if_pos hp] at h
      exact ih h
    · rw [if_neg hp] at h
      simp only [List.head?_cons, Option.some.injEq] at h
      subst h
      simpa using hp

theorem dw_eq_self {p : Char → Bool} {l : List Char}
    (h : ∀ c, l.head? = some c → p c = false) : l.dropWhile p = l := by
  cases l with
  | nil => rfl
  | cons a t =>
    rw [List.dropWhile_cons, if_neg]
    simp [h a rfl]

theorem dw_keepLast {p : Char → Bool} :
    ∀ {l : List Char} {c : Char}, l.getLast? = some c → p c = false →
      (l.dropWhile p).getLast? = some c := by
  intro l
  induction l with
  | nil => intro c h _; simp at h
  | cons a t ih =>
    intro c h hc
    cases t with
    | nil =>
      simp only [List.getLast?_singleton, Option.some.injEq] at h
      subst h
      rw [List.dropWhile_cons, if_neg (by simp [hc])]
      simp
    | cons b t2 =>
      rw [List.getLast?_cons_cons] at h
      rw [List.dropWhile_cons]
      by_cases hp : p a = true
      · rw [if_pos hp]
        exact ih h hc
      · rw [if_neg hp, List.getLast?_cons_cons]
        exact h

theorem dw_exists_pre {p : Char → Bool} :
    ∀ l : List Char, ∃ t, t ++ l.dropWhile p = l := by
  intro l
  induction l with
  | nil => exact ⟨[], rfl⟩
  | cons a t ih =>
    rw [List.dropWhile_cons]
    by_cases hp : p a = true
    · rw [if_pos hp]
      obtain ⟨u, hu⟩ := ih
      exact ⟨a :: u, by simp [hu]⟩
    · rw [if_neg hp]
      exact ⟨[], rfl⟩

theorem rs_exists_suf {p : Char → Bool} (m : List Char) :
    ∃ u, rstripBy p m ++ u = m := by
  obtain ⟨t, ht⟩ := dw_exists_pre (p := p) m.reverse
  refine ⟨t.reverse, ?_⟩
  have := congrArg List.reverse ht
  simpa [rstripBy] using this

theorem rs_getLast {p : Char → Bool} {m : List Char} {c : Char}
    (h : (rstripBy p m).getLast? = some c) : p c = false := by
  apply dw_head (l := m.reverse) (c := c)
  rw [← List.getLast?_reverse]
  simpa [rstripBy] using h

theorem rs_head_keep {p : Char → Bool} {m : List Char} {c : Char}
    (h : m.head? = some c) (hc : p c = false) : (rstripBy p m).head? = some c := by
  rw [rstripBy, List.head?_reverse]
  apply dw_keepLast _ hc
  rw [List.getLast?_reverse]
  exact h

theorem rs_eq_self {p : Char → Bool} {m : List Char}
    (h : ∀ c, m.getLast? = some c → p c = false) : rstripBy p m = m := by
  rw [rstripBy, dw_eq_self, List.reverse_reverse]
  intro c hc
  rw [List.head?_reverse] at hc
  exact h c hc

theorem head?_append_left {x u : List Char} {c : Char}
    (h : x.head? = some c) : (x ++ u).head? = some c := by
  cases x with
  | nil => simp at h
  | cons a t => simpa using h

theorem stripBy_head_keep {p : Char → Bool} {m : List Char} {c : Char}
    (h : m.head? = some c) (hc : p c = false) : (stripBy p m).head? = some c := by
  rw [stripBy, lstripBy]
  apply rs_head_keep _ hc
  rw [dw_eq_self]
  · exact h
  · intro d hd
    rw [h] at hd
    cases hd
    exact hc

theorem stripBy_eq_self {p : Char → Bool} {m : List Char}
    (h1 : ∀ c, m.head? = some c → p c = false)
    (h2 : ∀ c, m.getLast? = some c → p c = false) : stripBy p m = m := by
  rw [stripBy, lstripBy, dw_eq_self h1, rs_eq_self h2]

theorem stripBy_head {p : Char → Bool} {m : List Char} {c : Char}
    (h : (stripBy p m).head? = some c) : p c = false := by
  rw [stripBy] at h
  obtain ⟨u, hu⟩ := rs_exists_suf (p := p) (lstripBy p m)
  apply dw_head (l := m) (c := c)
  rw [← lstripBy]
  rw [← hu]
  exact head?_append_left h

theorem stripBy_getLast {p : Char → Bool} {m : List Char} {c : Char}
    (h : (stripBy p m).getLast? = some c) : p c = false :=
  rs_getLast h

/-! ### Space-normal form: the shape of a joined word list -/

/-- No two adjacent whitespace characters. -/
def noDbl : List Char → Bool
  | a :: b :: t => !(isSp a && isSp b) && noDbl (b :: t)
  | _ => true

theorem noDbl_tail : ∀ {a : Char} {t : List Char}, noDbl (a :: t) = true → noDbl t = true := by
  intro a t h
  cases t with
  | nil => rfl
  | cons b t2 =>
    rw [noDbl, Bool.and_eq_true] at h
    exact h.2

theorem noDbl_append_left : ∀ {x u : List Char}, noDbl (x ++ u) = true → noDbl x = true := by
  intro x
  induction x with
  | nil => intro u _; rfl
  | cons a t ih =>
    intro u h
    cases t with
    | nil => rfl
    | cons b t2 =>
      simp only [List.cons_append] at h
      rw [noDbl, Bool.and_eq_true] at h ⊢
      refine ⟨h.1, ?_⟩
      exact ih (u := u) (by simpa using h.2)

theorem noDbl_suffix : ∀ {t l s : List Char}, t ++ s = l → noDbl l = true → noDbl s = true := by
  intro t
  induction t with
  | nil =>
    intro l s h hd
    subst h
    simpa using hd
  | cons a t2 ih =>
    intro l s h hd
    subst h
    exact ih rfl (noDbl_tail (by simpa using hd))

theorem noDbl_append {x y : List Char} (hx : noDbl x = true) (hy : noDbl y = true)
    (hb : ∀ a b, x.getLast? = some a → y.head? = some b → (!(isSp a && isSp b)) = true) :
    noDbl (x ++ y) = true := by
  induction x with
  | nil => simpa using hy
  | cons a t ih =>
    cases t with
    | nil =>
      cases y with
      | nil => rfl
      | cons b t2 =>
        simp only [List.cons_append, List.nil_append]
        rw [noDbl, Bool.and_eq_true]
        exact ⟨hb a b rfl rfl, hy⟩
    | cons c t2 =>
      simp only [List.cons_append]
      rw [noDbl, Bool.and_eq_true]
      rw [noDbl, Bool.and_eq_true] at hx
      refine ⟨hx.1, ?_⟩
      have := ih hx.2 (by intro p q hp hq; exact hb p q (by rw [List.getLast?_cons_cons]; exact hp) hq)
      simpa using this

theorem noDbl_of_no_sp : ∀ {l : List Char}, (∀ c ∈ l, isSp c = false) → noDbl l = true := by
  intro l
  induction l with
  | nil => intro _; rfl
  | cons a t ih =>
    intro h
    cases t with
    | nil => rfl
    | cons b t2 =>
      rw [noDbl, Bool.and_eq_true]
      constructor
      · simp [h a (by simp)]
      · exact ih (fun c hc => h c (by simp [hc]))

theorem mem_rstrip {p : Char → Bool} {m : List Char} {c : Char}
    (h : c ∈ rstripBy p m) : c ∈ m := by
  obtain ⟨u, hu⟩ := rs_exists_suf (p := p) m
  rw [← hu]
  exact List.mem_append_left _ h

theorem mem_stripBy {p : Char → Bool} {m : List Char} {c : Char}
    (h : c ∈ stripBy p m) : c ∈ m := by
  rw [stripBy] at h
  have h2 := mem_rstrip h
  rw [lstripBy] at h2
  exact (List.dropWhile_sublist (l := m) p).mem h2

/-- Space-normal form: every whitespace character is a plain space, no
two adjacent spaces, and no space at either end.  This is exactly the
shape of the output of joining split words with single spaces. -/
def NF (l : List Char) : Prop :=
  (∀ c ∈ l, isSp c = true → c = ' ') ∧ noDbl l = true ∧
  (∀ c, l.head? = some c → isSp c = false) ∧
  (∀ c, l.getLast? = some c → isSp c = false)

theorem words_good : ∀ (l : List Char) (w : List Char), w ∈ words l →
    w ≠ [] ∧ ∀ c ∈ w, isSp c = false := by
  intro l
  induction l using words.induct with
  | case1 =>
    intro w h
    simp [words] at h
  | case2 c hc =>
    intro w h
    simp [words, if_pos hc] at h
  | case3 c hc =>
    intro w h
    rw [words, if_neg hc] at h
    simp only [List.mem_singleton] at h
    subst h
    exact ⟨by simp, by
      intro x hx
      simp only [List.mem_singleton] at hx
      subst hx
      simpa using hc⟩
  | case4 c d cs hc ih =>
    intro w h
    rw [words, if_pos hc] at h
    exact ih w h
  | case5 c d cs hc hd ih =>
    intro w h
    rw [words, if_neg hc, if_pos hd] at h
    rcases List.mem_cons.mp h with h3 | h3
    · subst h3
      exact ⟨by simp, by
        intro x hx
        simp only [List.mem_singleton] at hx
        subst hx
        simpa using hc⟩
    · exact ih w h3
  | case6 c d cs r hc hd w0 ws hr ih =>
    intro w h
    have hr2 : words (d :: cs) = w0 :: ws := hr
    rw [words, if_neg hc, if_neg hd] at h
    rw [hr2] at h
    simp only [List.mem_cons] at h
    rcases h with h3 | h3
    · subst h3
      have hw0 := ih w0 (by rw [hr2]; simp)
      refine ⟨by simp, ?_⟩
      intro x hx
      rcases List.mem_cons.mp hx with h4 | h4
      · subst h4
        simpa using hc
      · exact hw0.2 x h4
    · exact ih w (by rw [hr2]; exact List.mem_cons_of_mem _ h3)
  | case7 c d cs r hc hd hr ih =>
    intro w h
    have hr2 : words (d :: cs) = [] := hr
    rw [words, if_neg hc, if_neg hd] at h
    rw [hr2] at h
    simp only [List.mem_singleton] at h
    subst h
    exact ⟨by simp, by
      intro x hx
      simp only [List.mem_singleton] at hx
      subst hx
      simpa using hc⟩

theorem words_sp_head {d : Char} (hd : isSp d = true) :
    ∀ cs : List Char, words (d :: cs) = words cs := by
  intro cs
  cases cs with
  | nil => simp [words, hd]
  | cons e cs2 => simp only [words, if_pos hd]

theorem words_head : ∀ (cs : List Char) (c : Char), isSp c = false →
    ∃ w ws, words (c :: cs) = (c :: w) :: ws := by
  intro cs
  induction cs with
  | nil =>
    intro c hc
    exact ⟨[], [], by rw [words, if_neg (by simp [hc])]⟩
  | cons d cs2 ih =>
    intro c hc
    by_cases hd : isSp d = true
    · refine ⟨[], words (d :: cs2), ?_⟩
      rw [words, if_neg (by simp [hc]), if_pos hd]
    · obtain ⟨w, ws, hw⟩ := ih d (by simpa using hd)
      refine ⟨d :: w, ws, ?_⟩
      rw [words, if_neg (by simp [hc]), if_neg hd, hw]

theorem joinW_cons_cons (c : Char) (w : List Char) (ws : List (List Char)) :
    joinW ((c :: w) :: ws) = c :: joinW (w :: ws) := by
  cases ws with
  | nil => rfl
  | cons x rest => simp [joinW]

theorem joinW_head : ∀ (w : List Char) (ws : List (List Char)), w ≠ [] →
    (joinW (w :: ws)).head? = w.head? := by
  intro w ws hw
  cases ws with
  | nil => rfl
  | cons x rest =>
    rw [joinW]
    cases w with
    | nil => exact absurd rfl hw
    | cons a w2 => simp

theorem joinW_words_nf : ∀ (l : List Char), NF l → joinW (words l) = l
  | [], _ => by simp [words, joinW]
  | [c], h => by
    have hc : isSp c = false := h.2.2.1 c rfl
    rw [words, if_neg (by simp [hc])]
    rfl
  | c :: d :: cs, h => by
    have hc : isSp c = false := h.2.2.1 c rfl
    by_cases hd : isSp d = true
    · have hd2 : d = ' ' := h.1 d (by simp) hd
      cases cs with
      | nil =>
        have hlast := h.2.2.2 d (by rw [List.getLast?_cons_cons]; rfl)
        rw [hlast] at hd
        exact absurd hd (by simp)
      | cons e cs2 =>
        have hnd2 : noDbl (d :: e :: cs2) = true := noDbl_tail h.2.1
        have he : isSp e = false := by
          rw [noDbl, Bool.and_eq_true] at hnd2
          have hb := hnd2.1
          cases hse : isSp e
          · rfl
          · rw [hd, hse] at hb
            simp at hb
        have hNF : NF (e :: cs2) := by
          refine ⟨?_, ?_, ?_, ?_⟩
          · intro x hx hs
            exact h.1 x (by simp [hx]) hs
          · exact noDbl_tail hnd2
          · intro x hx
            simp only [List.head?_cons, Option.some.injEq] at hx
            subst hx
            exact he
          · intro x hx
            apply h.2.2.2 x
            rw [List.getLast?_cons_cons, List.getLast?_cons_cons]
            exact hx
        have ihcs := joinW_words_nf (e :: cs2) hNF
        obtain ⟨w, ws, hw⟩ := words_head cs2 e he
        rw [words, if_neg (by simp [hc]), if_pos hd]
        rw [words_sp_head hd, hw]
        rw [hw] at ihcs
        simp only [joinW]
        rw [ihcs]
        simp [hd2]
    · have hNF : NF (d :: cs) := by
        refine ⟨?_, ?_, ?_, ?_⟩
        · intro x hx hs
          exact h.1 x (by simp [hx]) hs
        · exact noDbl_tail h.2.1
        · intro x hx
          simp only [List.head?_cons, Option.some.injEq] at hx
          subst hx
          simpa using hd
        · intro x hx
          apply h.2.2.2 x
          rw [List.getLast?_cons_cons]
          exact hx
      have ih := joinW_words_nf (d :: cs) hNF
      obtain ⟨w, ws, hw⟩ := words_head cs d (by simpa using hd)
      rw [words, if_neg (by simp [hc]), if_neg hd, hw]
      rw [joinW_cons_cons, ← hw, ih]
termination_by l => l.length

theorem NF_joinW : ∀ (ws : List (List Char)),
    (∀ w ∈ ws, w ≠ [] ∧ ∀ c ∈ w, isSp c = false) → NF (joinW ws)
  | [], _ => by
    refine ⟨?_, rfl, ?_, ?_⟩ <;> simp [joinW]
  | [w], h => by
    have hw := h w (by simp)
    show NF w
    refine ⟨?_, noDbl_of_no_sp hw.2, ?_, ?_⟩
    · intro c hc hs
      rw [hw.2 c hc] at hs
      exact absurd hs (by simp)
    · intro c hc
      exact hw.2 c (List.mem_of_mem_head? (by rw [hc]; rfl))
    · intro c hc
      exact hw.2 c (List.mem_of_mem_getLast? (by rw [hc]; rfl))
  | w :: x :: rest, h => by
    have hw := h w (by simp)
    have hx := h x (by simp)
    have ih := NF_joinW (x :: rest) (fun u hu => h u (by simp [hu]))
    have hJne : joinW (x :: rest) ≠ [] := by
      cases x with
      | nil => exact absurd rfl hx.1
      | cons a x2 =>
        intro hcon
        have := joinW_head (a :: x2) rest (by simp)
        rw [hcon] at this
        simp at this
    obtain ⟨j0, J2, hJ⟩ : ∃ j0 J2, joinW (x :: rest) = j0 :: J2 := by
      cases hJc : joinW (x :: rest) with
      | nil => exact absurd hJc hJne
      | cons a t => exact ⟨a, t, rfl⟩
    have hj0 : isSp j0 = false := ih.2.2.1 j0 (by rw [hJ]; rfl)
    show NF (w ++ ' ' :: joinW (x :: rest))
    refine ⟨?_, ?_, ?_, ?_⟩
    · intro c hc hs
      rcases List.mem_append.mp hc with hc1 | hc1
      · rw [hw.2 c hc1] at hs
        exact absurd hs (by simp)
      · rcases List.mem_cons.mp hc1 with hc2 | hc2
        · exact hc2
        · exact ih.1 c hc2 hs
    · apply noDbl_append (noDbl_of_no_sp hw.2)
      · rw [hJ]
        rw [noDbl, Bool.and_eq_true]
        constructor
        · simp [hj0]
        · rw [← hJ]
          exact ih.2.1
      · intro a b ha hb
        have ha2 := hw.2 a (List.mem_of_mem_getLast? (by rw [ha]; rfl))
        simp [ha2]
    · intro c hc
      cases w with
      | nil => exact absurd rfl hw.1
      | cons a w2 =>
        simp only [List.cons_append, List.head?_cons, Option.some.injEq] at hc
        rw [← hc]
        exact hw.2 a (by simp)
    · intro c hc
      rw [List.getLast?_append] at hc
      rw [hJ] at hc
      have hne : (' ' :: j0 :: J2).getLast? = (j0 :: J2).getLast? := List.getLast?_cons_cons
      rw [hne] at hc
      have : (j0 :: J2).getLast?.isSome := by
        cases hgl : (j0 :: J2).getLast? with
        | none => simp [List.getLast?] at hgl
        | some v => rfl
      cases hgl : (j0 :: J2).getLast? with
      | none => rw [hgl] at this; simp at this
      | some v =>
        rw [hgl] at hc
        simp only [Option.or_some, Option.some.injEq] at hc
        subst hc
        apply ih.2.2.2
        rw [hJ]
        exact hgl

theorem NF_strip (q : List Char) (h : NF q) :
    NF (stripBy isSp (stripBy inP q)) := by
  have hmem : ∀ c, c ∈ stripBy isSp (stripBy inP q) → c ∈ q := by
    intro c hc
    exact mem_stripBy (mem_stripBy hc)
  have hnd : noDbl (stripBy isSp (stripBy inP q)) = true := by
    have step : ∀ (p : Char → Bool) (m : List Char), noDbl m = true →
        noDbl (stripBy p m) = true := by
      intro p m hm
      rw [stripBy]
      obtain ⟨u, hu⟩ := rs_exists_suf (p := p) (lstripBy p m)
      apply noDbl_append_left (u := u)
      rw [hu, lstripBy]
      obtain ⟨t, ht⟩ := dw_exists_pre (p := p) m
      exact noDbl_suffix ht hm
    exact step isSp _ (step inP _ h.2.1)
  refine ⟨?_, hnd, ?_, ?_⟩
  · intro c hc hs
    exact h.1 c (hmem c hc) hs
  · intro c hc
    exact stripBy_head hc
  · intro c hc
    exact stripBy_getLast hc

theorem clean_some {t s : List Char} (h : clean_text t = some s) :
    s = stripBy isSp (stripBy inP (joinW (words (stripBy isSp t)))) ∧ s ≠ [] := by
  by_cases h1 : t.isEmpty = true
  · rw [clean_text, if_pos h1] at h
    exact absurd h (by simp)
  · rw [clean_text, if_neg h1] at h
    have h' : (if (stripBy isSp (stripBy inP (joinW (words (stripBy isSp t))))).isEmpty = true
        then (none : Option (List Char))
        else some (stripBy isSp (stripBy inP (joinW (words (stripBy isSp t)))))) = some s := h
    by_cases h2 : (stripBy isSp (stripBy inP (joinW (words (stripBy isSp t))))).isEmpty = true
    · rw [if_pos h2] at h'
      exact absurd h' (by simp)
    · rw [if_neg h2] at h'
      simp only [Option.some.injEq] at h'
      subst h'
      refine ⟨rfl, ?_⟩
      intro hc
      rw [hc] at h2
      exact h2 rfl

theorem NF_clean {t s : List Char} (h : clean_text t = some s) : NF s := by
  obtain ⟨hs, _⟩ := clean_some h
  rw [hs]
  exact NF_strip _ (NF_joinW _ (fun w hw => words_good _ w hw))

theorem clean_idem_cond {t s : List Char} (h : clean_text t = some s)
    (h1 : ∀ c, s.head? = some c → inP c = false)
    (h2 : ∀ c, s.getLast? = some c → inP c = false) :
    clean_text s = some s := by
  have hNF := NF_clean h
  have hne : s ≠ [] := (clean_some h).2
  have hne2 : s.isEmpty = false := by
    cases s with
    | nil => exact absurd rfl hne
    | cons a t2 => rfl
  have e1 : stripBy isSp s = s := stripBy_eq_self hNF.2.2.1 hNF.2.2.2
  have e2 : joinW (words s) = s := joinW_words_nf s hNF
  have e3 : stripBy inP s = s := stripBy_eq_self h1 h2
  simp only [clean_text, hne2, Bool.false_eq_true, if_false, e1, e2, e3]

theorem clean_head {t s : List Char} {c : Char} (ht : t.head? = some c)
    (hsp : isSp c = false) (hp : inP c = false) (h : clean_text t = some s) :
    s.head? = some c := by
  obtain ⟨hs, hne⟩ := clean_some h
  have e1 : (stripBy isSp t).head? = some c := stripBy_head_keep ht hsp
  obtain ⟨t1t, ht1⟩ : ∃ r, stripBy isSp t = c :: r := by
    cases hx : stripBy isSp t with
    | nil => rw [hx] at e1; simp at e1
    | cons a r =>
      rw [hx] at e1
      simp only [List.head?_cons, Option.some.injEq] at e1
      subst e1
      exact ⟨r, rfl⟩
  obtain ⟨w, ws, hw⟩ := words_head t1t c hsp
  have e2 : (joinW (words (stripBy isSp t))).head? = some c := by
    rw [ht1, hw, joinW_cons_cons]
    simp
  have e3 : (stripBy inP (joinW (words (stripBy isSp t)))).head? = some c :=
    stripBy_head_keep e2 hp
  have e4 : (stripBy isSp (stripBy inP (joinW (words (stripBy isSp t))))).head? = some c :=
    stripBy_head_keep e3 hsp
  rw [hs]
  exact e4

theorem item_to_cat {s : List Char} {c : Char} (hh : s.head? = some c)
    (ha : c.isAlpha = true) (hi : is_valid_item_name s = true) :
    is_valid_category_name s = true := by
  cases s with
  | nil => simp at hh
  | cons a cs =>
    simp only [List.head?_cons, Option.some.injEq] at hh
    subst hh
    rw [is_valid_item_name] at hi
    rw [is_valid_category_name]
    by_cases h1 : (stripBy isSp (a :: cs)).length < 2
    · rw [if_pos h1] at hi
      cases hi
    · rw [if_neg h1] at hi ⊢
      by_cases h2 : anyPattern (a :: cs) = true
      · rw [if_pos h2] at hi
        cases hi
      · rw [if_neg h2] at hi ⊢
        rw [if_neg (by simp [alpha_alphanum ha])]
        have hnd : ¬ pyIsDigitStr ((a :: cs).filter (fun x => x ≠ '.')) = true := by
          intro hd
          have hfa : (a :: cs).filter (fun x => x ≠ '.') =
              a :: cs.filter (fun x => x ≠ '.') := by
            rw [List.filter_cons, if_pos (by simp [alpha_ne_dot ha])]
          rw [hfa, pyIsDigitStr] at hd
          simp only [Bool.and_eq_true, List.all_cons] at hd
          have hda := hd.2.1
          rw [alpha_not_digit ha] at hda
          cases hda
        rw [if_neg hnd]

/-! ### Helper lemmas about process_row -/

/-- Is a processed row an item payload? -/
def isItemRow : Option ProcessedRow → Bool
  | some (ProcessedRow.item _ _ _ _) => true
  | _ => false

theorem pr_none_of_nonalpha (row : List Cell) (ci : ColIdx) (c : Char) (rest : List Char)
    (hfc : stripBy isSp (pyStr (row.headD Cell.blank)) = c :: rest)
    (hna : c.isAlpha = false) : process_row row ci = none := by
  simp only [process_row, hfc]
  rw [if_pos (by simp [hna])]

theorem validators_false_of_pattern {s : List Char} (hp : anyPattern s = true) :
    is_valid_category_name s = false ∧ is_valid_item_name s = false := by
  cases s with
  | nil => exact ⟨rfl, rfl⟩
  | cons a cs =>
    rw [is_valid_category_name, is_valid_item_name]
    constructor <;>
    · by_cases h1 : (stripBy isSp (a :: cs)).length < 2
      · rw [if_pos h1]
      · rw [if_neg h1, if_pos hp]

theorem pr_none_of_pattern (row : List Cell) (ci : ColIdx) (s : List Char)
    (hct : clean_text (stripBy isSp (pyStr (row.headD Cell.blank))) = some s)
    (hp : anyPattern s = true) : process_row row ci = none := by
  obtain ⟨hvc, hvi⟩ := validators_false_of_pattern hp
  cases hfc : stripBy isSp (pyStr (row.headD Cell.blank)) with
  | nil => simp only [process_row, hfc]
  | cons c rest =>
    rw [hfc] at hct
    by_cases hca : c.isAlpha = true
    · simp only [process_row, hfc, hct]
      rw [if_neg (by simp [hca]), if_neg (by simp [hvc]), if_neg (by simp [hvi])]
    · exact pr_none_of_nonalpha row ci c rest hfc (by simpa using hca)

/-! ### Claim theorems -/

/-- Claim C2: for every spreadsheet row and every tuple of column
indices, process_row returns either None or a category dictionary and
never an item dictionary: any cleaned text of a letter-initial first
cell that passes is_valid_item_name also passes is_valid_category_name,
so the item fallback branch is unreachable. -/
theorem process_row_never_item (row : List Cell) (ci : ColIdx) :
    isItemRow (process_row row ci) = false := by
  cases hfc : stripBy isSp (pyStr (row.headD Cell.blank)) with
  | nil =>
    simp only [process_row, hfc]
    rfl
  | cons c rest =>
    by_cases hca : c.isAlpha = true
    · cases hct : clean_text (c :: rest) with
      | none =>
        simp only [process_row, hfc, hct]
        rw [if_neg (by simp [hca])]
        rfl
      | some cleaned =>
        have hh : cleaned.head? = some c :=
          clean_head (t := c :: rest) rfl (alpha_not_sp hca) (alpha_not_inP hca) hct
        by_cases hvc : is_valid_category_name cleaned = true
        · simp only [process_row, hfc, hct]
          rw [if_neg (by simp [hca]), if_pos hvc]
          rfl
        · have hvi : is_valid_item_name cleaned = false := by
            cases hxx : is_valid_item_name cleaned
            · rfl
            · exact absurd (item_to_cat hh hca hxx) hvc
          simp only [process_row, hfc, hct]
          rw [if_neg (by simp [hca]), if_neg hvc, if_neg (by simp [hvi])]
          rfl
    · rw [pr_none_of_nonalpha row ci c rest hfc (by simpa using hca)]
      rfl

/-- Claim C5 (amended): the classification never consults the unit
flag, and any row whose stripped first cell starts with a non-letter
character (in particular the pure digit "3", with or without a unit
cell) is skipped: process_row returns None. -/
theorem digit_first_cell_always_skipped (row : List Cell) (ci : ColIdx) (c : Char)
    (h1 : (stripBy isSp (pyStr (row.headD Cell.blank))).head? = some c)
    (h2 : c.isAlpha = false) : process_row row ci = none := by
  cases hfc : stripBy isSp (pyStr (row.headD Cell.blank)) with
  | nil =>
    rw [hfc] at h1
    simp at h1
  | cons a rest =>
    rw [hfc] at h1
    simp only [List.head?_cons, Option.some.injEq] at h1
    subst h1
    exact pr_none_of_nonalpha row ci a rest hfc h2

/-- Witness for C5: the row ["3"] with no unit column is classified as
nothing (the spec claims Noise without a unit, which holds). -/
theorem digit_first_cell_always_skipped_witness :
    (stripBy isSp (pyStr (([Cell.str "3".toList] : List Cell).headD Cell.blank))).head?
        = some '3' ∧
    ('3'.isAlpha = false) ∧
    process_row [Cell.str "3".toList] (none, none, none, none) = none :=
  ⟨by decide, by decide,
    digit_first_cell_always_skipped [Cell.str "3".toList] (none, none, none, none) '3'
      (by decide) (by decide)⟩

/-- Counterexample for C5 as stated: the row ["3", "m3", "100", "120"]
has a unit, yet process_row returns None rather than an item. -/
theorem digit_with_unit_not_item :
    process_row [Cell.str "3".toList, Cell.str "m3".toList,
        Cell.str "100".toList, Cell.str "120".toList]
      (some 0, some 1, some 2, some 3) = none := by decide

/-- Claim C9 (amended): a CLEANED first cell matching one of the nine
noise patterns is always classified as noise (process_row returns
None), and both quoted instances are noise; but pattern matching
happens after cleaning, so a raw cell matching a pattern can still
become a category when cleaning strips the matched punctuation. -/
theorem noise_patterns_yield_noise :
    (∀ (row : List Cell) (ci : ColIdx) (s : List Char),
        clean_text (stripBy isSp (pyStr (row.headD Cell.blank))) = some s →
        anyPattern s = true → process_row row ci = none) ∧
    process_row [Cell.str "NOTE: see below".toList] (some 0, some 1, some 2, some 3)
      = none ∧
    process_row [Cell.str "** Important".toList] (some 0, some 1, some 2, some 3)
      = none := by
  refine ⟨?_, by decide, by decide⟩
  intro row ci s hct hp
  exact pr_none_of_pattern row ci s hct hp

/-- Witness for C9: the quantified part applied to a WARNING row. -/
theorem noise_patterns_yield_noise_witness :
    clean_text (stripBy isSp (pyStr (([Cell.str "WARNING: x".toList] : List Cell).headD
        Cell.blank))) = some "WARNING: x".toList ∧
    anyPattern "WARNING: x".toList = true ∧
    process_row [Cell.str "WARNING: x".toList] (none, none, none, none) = none :=
  ⟨by decide, by decide,
    noise_patterns_yield_noise.1 [Cell.str "WARNING: x".toList] (none, none, none, none)
      "WARNING: x".toList (by decide) (by decide)⟩

/-- Counterexample for C9 as stated: "NOTE:" matches the NOTE noise
pattern, yet the code cleans it to "NOTE" and emits a category. -/
theorem pattern_match_creates_category :
    anyPattern "NOTE:".toList = true ∧
    process_row [Cell.str "NOTE:".toList] (some 0, some 1, some 2, some 3)
      = some (ProcessedRow.category "NOTE".toList) := by decide

/-- Claim C4 (amended): _process_sheet re-initialises
current_category_id to None for every sheet, so an item-classified row
arriving before any category of its own sheet is dropped, whatever
categories earlier sheets emitted. -/
theorem item_dropped_at_sheet_start (disc n u : List Char) (a b : Cell)
    (rest : List (Option ProcessedRow)) (k : Nat) :
    sheetLoop disc (some (ProcessedRow.item n u a b) :: rest) (k, none) =
      sheetLoop disc rest (k, none) := by
  rw [sheetLoop]
  simp [sheetStep]

/-- Counterexample for C4 as stated: sheet 1 ends having emitted
category "001", sheet 2 starts (with the state reset of main.py line
209) on an item row, and no item record is attributed to "001". -/
theorem sheet_boundary_drops_item :
    sheetLoop "1".toList [some (ProcessedRow.category "Earthworks".toList)] (0, none)
      = ((1, some "001".toList),
         [Record.cat "001".toList "Earthworks".toList "1".toList]) ∧
    (sheetLoop "1".toList
      [some (ProcessedRow.item "Excavation".toList "m3".toList
        (Cell.str "100".toList) (Cell.str "120".toList))] (1, none)).2 = [] := by
  decide

/-- The header row used by the end-to-end scenarios: it locates the
item, unit, national and sa columns at indices 0-3. -/
def stdHeaders : List Cell :=
  [Cell.str "Item".toList, Cell.str "Unit".toList,
   Cell.str "National Price".toList, Cell.str "SA Price".toList]

example : find_column_indices stdHeaders = (some 0, some 1, some 2, some 3) := by decide

/-- Claim C1 (code evaluation at the spec scenario): on the two-row
sheet [["Earthworks","","",""], ["Excavation","m3","100","120"]] the
run emits TWO category records, "001" Earthworks and "002" Excavation,
and no item record: "Excavation" passes is_valid_category_name, so the
claimed ItemRecord{Excavation, m3, 120.0, 001} is never produced. -/
theorem end_to_end_sheet_emits_two_categories :
    process_data "1".toList
      [⟨stdHeaders,
        [[Cell.str "Earthworks".toList, Cell.str [], Cell.str [], Cell.str []],
         [Cell.str "Excavation".toList, Cell.str "m3".toList,
          Cell.str "100".toList, Cell.str "120".toList]]⟩]
      = [Record.cat "001".toList "Earthworks".toList "1".toList,
         Record.cat "002".toList "Excavation".toList "1".toList] := by decide

/-- Claim C3 (code evaluation): over two sheets with one category row
each, both categories receive id "001": process_data never assigns the
counter returned by _process_sheet back to category_counter (main.py
lines 132-140), so the counter every sheet sees is 0 and ids collide
across sheets. -/
theorem category_ids_collide_across_sheets :
    process_data "1".toList
      [⟨stdHeaders, [[Cell.str "Earthworks".toList]]⟩,
       ⟨stdHeaders, [[Cell.str "Brickwork".toList]]⟩]
      = [Record.cat "001".toList "Earthworks".toList "1".toList,
         Record.cat "001".toList "Brickwork".toList "1".toList] := by decide

/-- Claim C6 (code evaluation at the spec scenario): a sheet whose only
data row is ["Excavation","m3","100","120"] with no prior category does
NOT yield zero records — the row is classified as a category (the
classifier ignores the unit column), so one CategoryRecord "001"
Excavation is emitted. -/
theorem lone_item_row_becomes_category :
    process_data "1".toList
      [⟨stdHeaders,
        [[Cell.str "Excavation".toList, Cell.str "m3".toList,
          Cell.str "100".toList, Cell.str "120".toList]]⟩]
      = [Record.cat "001".toList "Excavation".toList "1".toList] := by decide

/-- The state-machine invariant behind C6, at the row-loop level: an
item-classified row processed in the NoCategory state emits nothing
and leaves the state unchanged. -/
theorem item_in_no_category_state_emits_nothing (disc n u : List Char) (a b : Cell)
    (k : Nat) :
    sheetStep disc (k, none) (some (ProcessedRow.item n u a b)) = ((k, none), []) := rfl

/-- Claim C7 (amended): clean_text is idempotent on every output whose
first and last characters lie outside the stripped punctuation set
{*, :, -, .}; (outputs that begin or end with such a character shrink
further under a second application). -/
theorem clean_text_idempotent_on_punct_free (t s : List Char)
    (h : clean_text t = some s)
    (h1 : ∀ c, s.head? = some c → inP c = false)
    (h2 : ∀ c, s.getLast? = some c → inP c = false) :
    clean_text s = some s :=
  clean_idem_cond h h1 h2

/-- Witness for C7: clean_text "hello" = "hello" and cleaning again is
the identity. -/
theorem clean_text_idempotent_witness :
    clean_text "hello".toList = some "hello".toList ∧
    clean_text "hello".toList = some "hello".toList := by
  constructor
  · decide
  · apply clean_text_idempotent_on_punct_free "hello".toList
    · decide
    · intro c hc
      have h3 : ("hello".toList).head? = some 'h' := by decide
      rw [h3, Option.some.injEq] at hc
      subst hc
      decide
    · intro c hc
      have h3 : ("hello".toList).getLast? = some 'o' := by decide
      rw [h3, Option.some.injEq] at hc
      subst hc
      decide

/-- Counterexample for C7 as stated: clean_text "* *a" = "*a", but a
second application strips the exposed asterisk: clean_text "*a" = "a". -/
theorem clean_text_not_idempotent :
    clean_text "* *a".toList = some "*a".toList ∧
    clean_text "*a".toList ≠ some "*a".toList := by decide

theorem parse_price_str_eval {s : List Char} {p : FloatParts} {q : ℚ}
    (hp : pyFloatParse s = some p) (hv : ratOfParts p = q) :
    parse_price (Cell.str s) = q := by
  rw [parse_price, pyFloat, hp, Option.map_some', Option.getD_some, hv]

/-- Claim C8 (amended): get_max_price parses its two inputs
independently (missing or non-numeric become 0, numeric-parseable text
becomes its value) and returns the larger; it is total, and the result
is non-negative whenever at least one input parses to a non-negative
value — in particular whenever either input is missing or
non-numeric.  (Two negative numeric inputs do produce a negative
result; see the counterexample.) -/
theorem resolve_price_spec :
    get_max_price Cell.blank (Cell.str "12.5".toList) = 25 / 2 ∧
    get_max_price (Cell.str "abc".toList) (Cell.str "7".toList) = 7 ∧
    get_max_price Cell.blank Cell.blank = 0 ∧
    (∀ a b : Cell, get_max_price a b = max (parse_price a) (parse_price b)) ∧
    (∀ a b : Cell, 0 ≤ parse_price a ∨ 0 ≤ parse_price b →
      0 ≤ get_max_price a b) := by
  have h125 : parse_price (Cell.str "12.5".toList) = 25 / 2 := by
    apply parse_price_str_eval (p := ⟨false, "12".toList, "5".toList, 0⟩)
    · decide
    · have h1 : digitsVal "12".toList = 12 := by decide
      have h2 : digitsVal "5".toList = 5 := by decide
      have h3 : ("5".toList).length = 1 := by decide
      rw [ratOfParts]
      simp only [h1, h2, h3]
      norm_num
  have h7 : parse_price (Cell.str "7".toList) = 7 := by
    apply parse_price_str_eval (p := ⟨false, "7".toList, [], 0⟩)
    · decide
    · have h1 : digitsVal "7".toList = 7 := by decide
      have h2 : digitsVal ([] : List Char) = 0 := by decide
      rw [ratOfParts]
      simp only [h1, h2]
      norm_num
  have habc : parse_price (Cell.str "abc".toList) = 0 := by
    have h : pyFloatParse "abc".toList = none := by decide
    rw [parse_price, pyFloat, h]
    rfl
  have hblank : parse_price Cell.blank = 0 := rfl
  refine ⟨?_, ?_, ?_, fun a b => rfl, ?_⟩
  · rw [get_max_price, hblank, h125, max_eq_right (by norm_num)]
  · rw [get_max_price, habc, h7, max_eq_right (by norm_num)]
  · rw [get_max_price, hblank]
    simp
  · intro a b h
    rw [get_max_price]
    rcases h with h | h
    · exact le_max_of_le_left h
    · exact le_max_of_le_right h

/-- Witness for C8: the non-negativity clause at two missing inputs. -/
theorem resolve_price_spec_witness :
    (0 ≤ parse_price Cell.blank ∨ 0 ≤ parse_price Cell.blank) ∧
    0 ≤ get_max_price Cell.blank Cell.blank :=
  ⟨Or.inl (by simp [parse_price]),
   resolve_price_spec.2.2.2.2 Cell.blank Cell.blank (Or.inl (by simp [parse_price]))⟩

/-- Counterexample for C8 as stated ("never returns a negative value
for any pair of inputs"): two negative numeric texts give max(-5,-3) =
-3, which is negative. -/
theorem resolve_price_negative :
    get_max_price (Cell.str "-5".toList) (Cell.str "-3".toList) = -3 ∧
    (-3 : ℚ) < 0 := by
  have h5 : parse_price (Cell.str "-5".toList) = -5 := by
    apply parse_price_str_eval (p := ⟨true, "5".toList, [], 0⟩)
    · decide
    · have h1 : digitsVal "5".toList = 5 := by decide
      have h2 : digitsVal ([] : List Char) = 0 := by decide
      rw [ratOfParts]
      simp only [h1, h2]
      norm_num
  have h3 : parse_price (Cell.str "-3".toList) = -3 := by
    apply parse_price_str_eval (p := ⟨true, "3".toList, [], 0⟩)
    · decide
    · have h1 : digitsVal "3".toList = 3 := by decide
      have h2 : digitsVal ([] : List Char) = 0 := by decide
      rw [ratOfParts]
      simp only [h1, h2]
      norm_num
  constructor
  · rw [get_max_price, h5, h3, max_eq_right (by norm_num)]
  · norm_num

/-- Claim C10: when no header of a sheet contains "item", or none
contains "unit", the whole sheet is skipped: an error is reported, no
record is emitted, the counter is returned unchanged, and the run's
output over the remaining sheets is exactly as if the bad sheet were
absent. -/
theorem missing_column_skips_sheet (disc : List Char) (k : Nat) (s : Sheet)
    (h : (∀ c ∈ s.headers, substr "item".toList (hdrNorm c) = false) ∨
         (∀ c ∈ s.headers, substr "unit".toList (hdrNorm c) = false)) :
    process_sheet disc s k = (k, [], true) ∧
    ∀ pre post : List Sheet,
      process_data disc (pre ++ s :: post) = process_data disc (pre ++ post) := by
  have hidx : (find_column_indices s.headers).1 = none ∨
      (find_column_indices s.headers).2.1 = none := by
    rcases h with h | h
    · left
      rw [find_column_indices]
      apply List.findIdx?_eq_none_iff.mpr
      intro x hx
      rw [List.mem_map] at hx
      obtain ⟨c, hc, rfl⟩ := hx
      exact h c hc
    · right
      rw [find_column_indices]
      apply List.findIdx?_eq_none_iff.mpr
      intro x hx
      rw [List.mem_map] at hx
      obtain ⟨c, hc, rfl⟩ := hx
      exact h c hc
  have hps : ∀ m : Nat, process_sheet disc s m = (m, [], true) := by
    intro m
    rw [process_sheet, if_pos hidx]
  refine ⟨hps k, ?_⟩
  intro pre post
  rw [process_data, process_data]
  simp only [List.map_append, List.map_cons, hps 0, List.flatten_append,
    List.flatten_cons, List.nil_append]

/-- Witness for C10: a sheet whose single header "foo" mentions neither
required column is skipped with an error. -/
theorem missing_column_skips_sheet_witness :
    (∀ c ∈ ([Cell.str "foo".toList] : List Cell),
        substr "item".toList (hdrNorm c) = false) ∧
    process_sheet "1".toList
      ⟨[Cell.str "foo".toList], [[Cell.str "Earthworks".toList]]⟩ 0 = (0, [], true) :=
  ⟨by decide,
   (missing_column_skips_sheet "1".toList 0
     ⟨[Cell.str "foo".toList], [[Cell.str "Earthworks".toList]]⟩
     (Or.inl (by decide))).1⟩
